import Mathlib

/-!
Verification of the two computation cores of this repository:
the roots-of-unity notebook (cyclotomic polynomial roots on the unit
circle) and the closed-form Michaelis-Menten kinetics notebook
(Lambert W based trajectory evaluation).

Floating-point arithmetic of the source is modelled over the real
numbers; the scipy Lambert W routine is modelled as the real principal
branch, characterised as the inverse of `fun x => x * Real.exp x` on
the nonnegative reals (the only argument range the notebooks use).
-/

namespace RootsOfUnity

/-- Error taxonomy of the roots-of-unity module (from the spec's
error-handling design; the notebook itself has no explicit guard). -/
inductive UnityError where
  | InvalidArgument
  deriving DecidableEq

/-- Embeds the notebook function `findUnityRoot(n, k)`, which returns
`[np.cos(2*np.pi*k / n), np.sin(2*np.pi*k / n)]`. -/
noncomputable def findUnityRoot (n k : ℕ) : ℝ × ℝ :=
  (Real.cos (2 * Real.pi * k / n), Real.sin (2 * Real.pi * k / n))

/-- Modelled from the spec: `computeRoots(n)` validates `n ≥ 1`
(failing with `InvalidArgument` otherwise) and emits, for
`k = 0 … n-1`, the point `findUnityRoot n k`, in increasing order
of `k`.  The loop body is the notebook's `for k in range(n)` loop in
`plot_funct`; the input guard is present only in the spec. -/
noncomputable def computeRoots (n : ℤ) : Except UnityError (List (ℝ × ℝ)) :=
  if 1 ≤ n then
    Except.ok ((List.range n.toNat).map (fun k => findUnityRoot n.toNat k))
  else
    Except.error UnityError.InvalidArgument

lemma computeRoots_ok {n : ℤ} (h : 1 ≤ n) :
    computeRoots n =
      Except.ok ((List.range n.toNat).map (fun k => findUnityRoot n.toNat k)) := by
  unfold computeRoots
  rw [if_pos h]

lemma toNat_cast_real {n : ℤ} (h : 1 ≤ n) : ((n.toNat : ℕ) : ℝ) = (n : ℝ) := by
  have : ((n.toNat : ℕ) : ℤ) = n := Int.toNat_of_nonneg (by omega)
  exact_mod_cast congrArg (fun z : ℤ => (z : ℝ)) this

/-- C2: for every integer `n ≥ 1`, `computeRoots n` returns exactly `n`
points ordered by increasing `k`, the `k`-th point being
`(cos (2πk/n), sin (2πk/n))`; for `n = 1` the result is the single
point `(1, 0)`. -/
theorem computeRoots_points (n : ℤ) (h : 1 ≤ n) :
    ∃ l : List (ℝ × ℝ), computeRoots n = Except.ok l ∧
      l.length = n.toNat ∧
      (∀ k : ℕ, k < n.toNat →
        l.getD k (0, 0) =
          (Real.cos (2 * Real.pi * k / (n : ℝ)),
           Real.sin (2 * Real.pi * k / (n : ℝ)))) ∧
      (n = 1 → l = [(1, 0)]) := by
  refine ⟨(List.range n.toNat).map (fun k => findUnityRoot n.toNat k),
    computeRoots_ok h, by simp, ?_, ?_⟩
  · intro k hk
    have hlen : k < ((List.range n.toNat).map
        (fun k => findUnityRoot n.toNat k)).length := by simpa using hk
    rw [List.getD_eq_getElem _ _ hlen]
    simp only [List.getElem_map, List.getElem_range]
    rw [findUnityRoot, toNat_cast_real h]
  · intro h1
    subst h1
    have h0 : List.range 1 = [0] := rfl
    simp [findUnityRoot, h0]

theorem computeRoots_points_witness :
    computeRoots 1 = Except.ok [((1 : ℝ), (0 : ℝ))] := by
  obtain ⟨l, hok, -, -, h1⟩ := computeRoots_points 1 (by norm_num)
  rw [hok, h1 rfl]

/-- C4: for every integer `n ≤ 0`, `computeRoots n` fails with
`InvalidArgument` instead of returning a point sequence. -/
theorem computeRoots_rejects_nonpositive (n : ℤ) (h : n ≤ 0) :
    computeRoots n = Except.error UnityError.InvalidArgument := by
  unfold computeRoots
  rw [if_neg (by omega)]

theorem computeRoots_rejects_nonpositive_witness :
    computeRoots 0 = Except.error UnityError.InvalidArgument ∧
    computeRoots (-3) = Except.error UnityError.InvalidArgument :=
  ⟨computeRoots_rejects_nonpositive 0 (by norm_num),
   computeRoots_rejects_nonpositive (-3) (by norm_num)⟩

lemma sum_map_range_pair (f g : ℕ → ℝ) (m : ℕ) :
    ((List.range m).map (fun k => (f k, g k))).sum =
      (∑ k ∈ Finset.range m, f k, ∑ k ∈ Finset.range m, g k) := by
  induction m with
  | zero => simp
  | succ m ih =>
      rw [List.range_succ, List.map_append, List.sum_append, ih]
      simp [Finset.sum_range_succ, Prod.ext_iff]

lemma exp_unity_pow (m k : ℕ) (hm : m ≠ 0) :
    Complex.exp (2 * (Real.pi : ℂ) * Complex.I / m) ^ k =
      Complex.exp (((2 * Real.pi * k / m : ℝ) : ℂ) * Complex.I) := by
  rw [← Complex.exp_nat_mul]
  congr 1
  have hm0 : (m : ℂ) ≠ 0 := by exact_mod_cast hm
  push_cast
  field_simp
  ring

lemma sum_cos_sin_eq_zero {m : ℕ} (hm : 1 < m) :
    (∑ k ∈ Finset.range m, Real.cos (2 * Real.pi * k / m)) = 0 ∧
    (∑ k ∈ Finset.range m, Real.sin (2 * Real.pi * k / m)) = 0 := by
  have hm0 : m ≠ 0 := by omega
  have hζ := Complex.isPrimitiveRoot_exp m hm0
  have hsum := hζ.geom_sum_eq_zero hm
  have hsum2 : ∑ k ∈ Finset.range m,
      Complex.exp (((2 * Real.pi * k / m : ℝ) : ℂ) * Complex.I) = 0 := by
    rw [← Finset.sum_congr rfl (fun k _ => exp_unity_pow m k hm0)]
    exact hsum
  constructor
  · have hre := congrArg Complex.re hsum2
    rw [Complex.re_sum] at hre
    simp only [Complex.exp_ofReal_mul_I_re] at hre
    simpa using hre
  · have him := congrArg Complex.im hsum2
    rw [Complex.im_sum] at him
    simp only [Complex.exp_ofReal_mul_I_im] at him
    simpa using him

/-- C9: for every integer `n > 1` the coordinate-wise sum of the `n`
points returned by `computeRoots n` is `(0, 0)` (hence within any
tolerance), and for `n = 1` the sum is `(1, 0)`. -/
theorem computeRoots_sum_zero (n : ℤ) (h : 1 ≤ n) :
    ∃ l : List (ℝ × ℝ), computeRoots n = Except.ok l ∧
      (1 < n → l.sum = (0, 0)) ∧ (n = 1 → l.sum = (1, 0)) := by
  refine ⟨(List.range n.toNat).map (fun k => findUnityRoot n.toNat k),
    computeRoots_ok h, ?_, ?_⟩
  · intro hn
    have hm : 1 < n.toNat := by omega
    have hsum := sum_cos_sin_eq_zero hm
    unfold findUnityRoot
    rw [sum_map_range_pair, hsum.1, hsum.2]
  · intro h1
    subst h1
    simp [findUnityRoot, List.range_succ]

theorem computeRoots_sum_zero_witness :
    Except.map List.sum (computeRoots 3) = Except.ok ((0 : ℝ), (0 : ℝ)) := by
  obtain ⟨l, hok, hgt, -⟩ := computeRoots_sum_zero 3 (by norm_num)
  rw [hok]
  show Except.ok (List.sum l) = Except.ok ((0 : ℝ), (0 : ℝ))
  rw [hgt (by norm_num)]

end RootsOfUnity

namespace MichaelisMenten

/-- Auxiliary function `x ↦ x * exp x`, whose inverse on the
nonnegative reals is the principal branch of the Lambert W function. -/
noncomputable def mulExp (x : ℝ) : ℝ := x * Real.exp x

lemma continuous_mulExp : Continuous mulExp :=
  continuous_id.mul Real.continuous_exp

lemma mulExp_eq_zero_iff {x : ℝ} : mulExp x = 0 ↔ x = 0 := by
  unfold mulExp
  simp [mul_eq_zero, Real.exp_ne_zero]

lemma mulExp_nonneg {x : ℝ} (hx : 0 ≤ x) : 0 ≤ mulExp x :=
  mul_nonneg hx (Real.exp_pos x).le

lemma mulExp_nonpos {x : ℝ} (hx : x ≤ 0) : mulExp x ≤ 0 :=
  mul_nonpos_iff.mpr (Or.inr ⟨hx, (Real.exp_pos x).le⟩)

lemma mulExp_lt_mulExp {a b : ℝ} (ha : 0 ≤ a) (hab : a < b) :
    mulExp a < mulExp b := by
  unfold mulExp
  calc a * Real.exp a ≤ a * Real.exp b :=
        mul_le_mul_of_nonneg_left (Real.exp_le_exp.mpr hab.le) ha
    _ < b * Real.exp b :=
        mul_lt_mul_of_pos_right hab (Real.exp_pos b)

lemma mulExp_inj {a b : ℝ} (ha : 0 ≤ a) (hb : 0 ≤ b)
    (h : mulExp a = mulExp b) : a = b := by
  rcases lt_trichotomy a b with hlt | heq | hgt
  · exact absurd h (ne_of_lt (mulExp_lt_mulExp ha hlt))
  · exact heq
  · exact absurd h.symm (ne_of_lt (mulExp_lt_mulExp hb hgt))

lemma exists_mulExp_eq {z : ℝ} (hz : 0 ≤ z) :
    ∃ x, 0 ≤ x ∧ mulExp x = z := by
  have hcont : ContinuousOn mulExp (Set.Icc 0 z) :=
    continuous_mulExp.continuousOn
  have hz2 : z ∈ Set.Icc (mulExp 0) (mulExp z) := by
    constructor
    · simpa [mulExp] using hz
    · have h1 : z + 1 ≤ Real.exp z := Real.add_one_le_exp z
      unfold mulExp
      nlinarith
  obtain ⟨x, hx, hfx⟩ := intermediate_value_Icc hz hcont hz2
  exact ⟨x, hx.1, hfx⟩

/-- Real principal branch (branch k = 0) of the Lambert W function,
modelling the value of `scipy.special.lambertw(z, k=0)` on the
nonnegative real arguments produced by the closed-form formula. -/
noncomputable def lambertW (z : ℝ) : ℝ := Function.invFun mulExp z

lemma lambertW_eq {z : ℝ} (hz : 0 ≤ z) :
    mulExp (lambertW z) = z ∧ 0 ≤ lambertW z := by
  obtain ⟨x, -, hx⟩ := exists_mulExp_eq hz
  have h1 : mulExp (lambertW z) = z := Function.invFun_eq ⟨x, hx⟩
  refine ⟨h1, ?_⟩
  by_contra hneg
  push_neg at hneg
  have h2 : mulExp (lambertW z) ≤ 0 := mulExp_nonpos hneg.le
  have hz0 : z = 0 := le_antisymm (h1 ▸ h2) hz
  have h3 : lambertW z = 0 := mulExp_eq_zero_iff.mp (by rw [h1, hz0])
  exact (ne_of_lt hneg) h3

lemma lambertW_mulExp {x : ℝ} (hx : 0 ≤ x) : lambertW (mulExp x) = x := by
  obtain ⟨h1, h2⟩ := lambertW_eq (mulExp_nonneg hx)
  exact mulExp_inj h2 hx h1

lemma lambertW_zero : lambertW 0 = 0 := by
  have h := lambertW_mulExp (le_refl (0 : ℝ))
  simpa [mulExp] using h

lemma lambertW_mono {a b : ℝ} (ha : 0 ≤ a) (hab : a ≤ b) :
    lambertW a ≤ lambertW b := by
  obtain ⟨hfa, ha0⟩ := lambertW_eq ha
  obtain ⟨hfb, hb0⟩ := lambertW_eq (le_trans ha hab)
  by_contra hlt
  push_neg at hlt
  have h := mulExp_lt_mulExp hb0 hlt
  rw [hfa, hfb] at h
  linarith

/-- Embeds the notebook wrapper
`def W(z): return np.real(lambertw(z, k=0))`: the principal branch of
Lambert W with any residual imaginary component discarded.  In this
real-valued model the real-part selection is the identity. -/
noncomputable def W (z : ℝ) : ℝ := lambertW z

/-- Error taxonomy of the kinetics module (from the spec's
error-handling design). -/
inductive KineticError where
  | InvalidArgument
  | NumericDivergence
  deriving DecidableEq

/-- Kinetic parameter record: `K_M`, `v_max`, `E_0`, and the elementary
rate constant `k_1` that the notebook's `ES` formula uses directly. -/
structure KineticParameters where
  K_M : ℝ
  v_max : ℝ
  E_0 : ℝ
  k_1 : ℝ

/-- Embeds the notebook lambda
`S = lambda t : K_M * W(S_0 / K_M * np.exp(1 / K_M * (-v_max * t + S_0)))`. -/
noncomputable def S (p : KineticParameters) (S_0 t : ℝ) : ℝ :=
  p.K_M * W (S_0 / p.K_M * Real.exp (1 / p.K_M * (-p.v_max * t + S_0)))

/-- Embeds the notebook lambda
`ES = lambda t, S : (E_0 * S(t)) / (K_M + S(t)) * (1 - np.exp(-(K_M + S(t)) * k_1 * t))`. -/
noncomputable def ES (p : KineticParameters) (S_0 t : ℝ) : ℝ :=
  (p.E_0 * S p S_0 t) / (p.K_M + S p S_0 t) *
    (1 - Real.exp (-(p.K_M + S p S_0 t) * p.k_1 * t))

/-- Embeds the notebook lambda `E = lambda t, ES : E_0 - ES(t, S)`. -/
noncomputable def E (p : KineticParameters) (S_0 t : ℝ) : ℝ :=
  p.E_0 - ES p S_0 t

/-- Embeds the notebook lambda
`P = lambda t, S, ES : S_0 - S(t) - ES(t, S)`. -/
noncomputable def P (p : KineticParameters) (S_0 t : ℝ) : ℝ :=
  S_0 - S p S_0 t - ES p S_0 t

/-- Embeds the notebook lambda
`v = lambda t, S : (v_max * S(t)) / (K_M + S(t))`. -/
noncomputable def v (p : KineticParameters) (S_0 t : ℝ) : ℝ :=
  (p.v_max * S p S_0 t) / (p.K_M + S p S_0 t)

/-- Parallel time series of all species, as sampled by the notebook's
list comprehensions over the time grid `T`. -/
structure KineticTrajectory where
  times : List ℝ
  S : List ℝ
  ES : List ℝ
  E : List ℝ
  P : List ℝ
  v : List ℝ

/-- Samples every species formula on the caller-supplied time grid, as
the notebook's `[P(t, S, ES) for t in T]`, `[S(t) for t in T]`, etc. -/
noncomputable def evaluateTrajectory (p : KineticParameters) (S_0 : ℝ)
    (times : List ℝ) : KineticTrajectory :=
  { times := times
    S := times.map (MichaelisMenten.S p S_0)
    ES := times.map (MichaelisMenten.ES p S_0)
    E := times.map (MichaelisMenten.E p S_0)
    P := times.map (MichaelisMenten.P p S_0)
    v := times.map (MichaelisMenten.v p S_0) }

/-- Modelled from the spec: `deriveParameters(k_1, k_minus_1, k_cat, E_0)`
computes `K_M = (k_minus_1 + k_cat) / k_1` and `v_max = k_cat * E_0`
(the notebook's global constant definitions) and fails with
`InvalidArgument` when `k_1 ≤ 0`; the guard is present only in the
spec. -/
noncomputable def deriveParameters (k_1 k_minus_1 k_cat E_0 : ℝ) :
    Except KineticError KineticParameters :=
  if k_1 ≤ 0 then
    Except.error KineticError.InvalidArgument
  else
    Except.ok ⟨(k_minus_1 + k_cat) / k_1, k_cat * E_0, E_0, k_1⟩

/-- Embeds the validity-diagnostic expression of the notebook's third
cell, `round(E_0/(K_M + E_0), 3)` (without the display rounding),
exposed with the spec's signature `assumptionRatio(params, S_0)`.
Note the source expression divides by `K_M + E_0` and ignores `S_0`. -/
noncomputable def assumptionRatio (K_M E_0 S_0 : ℝ) : ℝ :=
  E_0 / (K_M + E_0)

/-- Validity diagnostic as the spec describes it, for comparison with
`assumptionRatio`: the quasi-steady-state ratio `E_0 / (K_M + S_0)`. -/
noncomputable def assumptionRatioSpec (K_M E_0 S_0 : ℝ) : ℝ :=
  E_0 / (K_M + S_0)

/-- C1: for every valid kinetic parameter set and every sampled time of
the trajectory returned by `evaluateTrajectory`, the free enzyme and
the complex satisfy `E(t) + ES(t) = E_0` (exactly, hence within any
numerical tolerance), because `E(t)` is computed as `E_0 - ES(t)`. -/
theorem trajectory_conservation (p : KineticParameters) (S_0 : ℝ)
    (hK : 0 < p.K_M) (hv : 0 < p.v_max) (hE : 0 ≤ p.E_0) (hS : 0 ≤ S_0)
    (ts : List ℝ) :
    ∀ q ∈ ((evaluateTrajectory p S_0 ts).E).zip
        ((evaluateTrajectory p S_0 ts).ES),
      q.1 + q.2 = p.E_0 := by
  intro q hq
  unfold evaluateTrajectory at hq
  rw [List.zip_map'] at hq
  obtain ⟨t, -, rfl⟩ := List.mem_map.mp hq
  show E p S_0 t + ES p S_0 t = p.E_0
  unfold E
  ring

theorem trajectory_conservation_witness :
    MichaelisMenten.E ⟨1, 1, 1, 1⟩ 15 0 + MichaelisMenten.ES ⟨1, 1, 1, 1⟩ 15 0 = 1 := by
  have h := trajectory_conservation ⟨1, 1, 1, 1⟩ 15 (by norm_num) (by norm_num)
    (by norm_num) (by norm_num) [0]
  exact h (MichaelisMenten.E ⟨1, 1, 1, 1⟩ 15 0, MichaelisMenten.ES ⟨1, 1, 1, 1⟩ 15 0)
    (by simp [evaluateTrajectory])

/-- C3: for `K_M > 0` and `S_0 ≥ 0`, the substrate formula evaluated at
`t = 0` returns exactly `S_0` (hence certainly within `1e-6`), by the
round-trip identity `W (x * exp x) = x` of the principal branch for
`x ≥ 0`. -/
theorem substrate_initial_value (p : KineticParameters) (S_0 : ℝ)
    (hK : 0 < p.K_M) (hS : 0 ≤ S_0) :
    S p S_0 0 = S_0 := by
  unfold S W
  have harg : 1 / p.K_M * (-p.v_max * 0 + S_0) = S_0 / p.K_M := by ring
  rw [harg]
  have hx : 0 ≤ S_0 / p.K_M := div_nonneg hS hK.le
  have hW : S_0 / p.K_M * Real.exp (S_0 / p.K_M) = mulExp (S_0 / p.K_M) := rfl
  rw [hW, lambertW_mulExp hx]
  field_simp

theorem substrate_initial_value_witness : S ⟨2, 3, 1, 1⟩ 15 0 = 15 :=
  substrate_initial_value ⟨2, 3, 1, 1⟩ 15 (by norm_num) (by norm_num)

lemma S_antitone_pointwise (p : KineticParameters) (S_0 : ℝ)
    (hK : 0 < p.K_M) (hv : 0 ≤ p.v_max) (hS : 0 ≤ S_0)
    {t1 t2 : ℝ} (h : t1 ≤ t2) : S p S_0 t2 ≤ S p S_0 t1 := by
  unfold S W
  have hc : 0 ≤ S_0 / p.K_M := div_nonneg hS hK.le
  have hmul : p.v_max * t1 ≤ p.v_max * t2 := mul_le_mul_of_nonneg_left h hv
  have h1K : 0 ≤ 1 / p.K_M := by positivity
  have hexp : Real.exp (1 / p.K_M * (-p.v_max * t2 + S_0)) ≤
      Real.exp (1 / p.K_M * (-p.v_max * t1 + S_0)) := by
    apply Real.exp_le_exp.mpr
    apply mul_le_mul_of_nonneg_left _ h1K
    linarith
  have harg : S_0 / p.K_M * Real.exp (1 / p.K_M * (-p.v_max * t2 + S_0)) ≤
      S_0 / p.K_M * Real.exp (1 / p.K_M * (-p.v_max * t1 + S_0)) :=
    mul_le_mul_of_nonneg_left hexp hc
  have hpos : 0 ≤ S_0 / p.K_M * Real.exp (1 / p.K_M * (-p.v_max * t2 + S_0)) :=
    mul_nonneg hc (Real.exp_pos _).le
  exact mul_le_mul_of_nonneg_left (lambertW_mono hpos harg) hK.le

/-- C5: for every valid kinetic parameter set and strictly increasing
time grid, the sampled substrate sequence returned by
`evaluateTrajectory` is monotonically non-increasing. -/
theorem substrate_nonincreasing (p : KineticParameters) (S_0 : ℝ)
    (hK : 0 < p.K_M) (hv : 0 < p.v_max) (hS : 0 ≤ S_0)
    (ts : List ℝ) (hts : ts.Chain' (· < ·)) :
    ((evaluateTrajectory p S_0 ts).S).Chain' (fun a b => b ≤ a) := by
  unfold evaluateTrajectory
  rw [List.chain'_map]
  exact hts.imp (fun a b hab => S_antitone_pointwise p S_0 hK hv.le hS hab.le)

theorem substrate_nonincreasing_witness :
    ((evaluateTrajectory ⟨1, 1, 1, 1⟩ 15 [0, 1]).S).Chain' (fun a b => b ≤ a) := by
  apply substrate_nonincreasing ⟨1, 1, 1, 1⟩ 15 (by norm_num) (by norm_num) (by norm_num)
  simp [List.chain'_cons]

/-- C10: for every valid kinetic parameter set the complex formula
evaluates to exactly `0` at `t = 0` (the factor `1 - exp 0` vanishes),
so `E 0 = E_0` and `P 0 = S_0 - S 0`: the trajectory starts with no
complex formed and all enzyme free. -/
theorem trajectory_initial_state (p : KineticParameters) (S_0 : ℝ)
    (hK : 0 < p.K_M) (hv : 0 < p.v_max) (hE : 0 ≤ p.E_0) (hS : 0 ≤ S_0) :
    ES p S_0 0 = 0 ∧ E p S_0 0 = p.E_0 ∧ P p S_0 0 = S_0 - S p S_0 0 := by
  have hES : ES p S_0 0 = 0 := by
    unfold ES
    simp
  refine ⟨hES, ?_, ?_⟩
  · unfold E
    rw [hES]
    ring
  · unfold P
    rw [hES]
    ring

theorem trajectory_initial_state_witness :
    ES ⟨1, 1, 1, 1⟩ 15 0 = 0 ∧ E ⟨1, 1, 1, 1⟩ 15 0 = (1 : ℝ) ∧
      P ⟨1, 1, 1, 1⟩ 15 0 = 15 - S ⟨1, 1, 1, 1⟩ 15 0 :=
  trajectory_initial_state ⟨1, 1, 1, 1⟩ 15 (by norm_num) (by norm_num)
    (by norm_num) (by norm_num)

/-- C6: the validity diagnostic of the notebook does NOT return
`E_0 / (K_M + S_0)`: at the notebook's own constants
(`K_M = (0.01 + 30)/5.5`, `E_0 = 0.5`, `S_0 = 15`) the source
expression `E_0/(K_M + E_0)` differs from the documented ratio
`E_0/(K_M + S_0)` (≈ 0.0839 versus ≈ 0.0244). -/
theorem assumptionRatio_deviation :
    assumptionRatio ((0.01 + 30) / 5.5) 0.5 15 ≠
      assumptionRatioSpec ((0.01 + 30) / 5.5) 0.5 15 := by
  unfold assumptionRatio assumptionRatioSpec
  norm_num

/-- C7: `deriveParameters` returns `K_M = (k_minus_1 + k_cat)/k_1` and
`v_max = k_cat * E_0` for every `k_1 > 0`, fails with
`InvalidArgument` for `k_1 ≤ 0`, and at the notebook's constants
yields `K_M = 3001/550 ≈ 5.4564` and `v_max = 15`. -/
theorem deriveParameters_correct :
    (∀ k_1 k_minus_1 k_cat E_0 : ℝ, 0 < k_1 →
      deriveParameters k_1 k_minus_1 k_cat E_0 =
        Except.ok ⟨(k_minus_1 + k_cat) / k_1, k_cat * E_0, E_0, k_1⟩) ∧
    (∀ k_1 k_minus_1 k_cat E_0 : ℝ, k_1 ≤ 0 →
      deriveParameters k_1 k_minus_1 k_cat E_0 =
        Except.error KineticError.InvalidArgument) ∧
    deriveParameters 5.5 0.01 30 0.5 = Except.ok ⟨3001 / 550, 15, 0.5, 5.5⟩ ∧
    |(3001 : ℝ) / 550 - 5.4564| < 1 / 1000 := by
  refine ⟨?_, ?_, ?_, ?_⟩
  · intro k_1 k_minus_1 k_cat E_0 h
    unfold deriveParameters
    rw [if_neg (not_le.mpr h)]
  · intro k_1 k_minus_1 k_cat E_0 h
    unfold deriveParameters
    rw [if_pos h]
  · unfold deriveParameters
    rw [if_neg (by norm_num)]
    norm_num [KineticParameters.mk.injEq]
  · rw [abs_lt]
    constructor <;> norm_num

theorem deriveParameters_correct_witness :
    deriveParameters 2 0 1 1 = Except.ok ⟨(0 + 1) / 2, 1 * 1, 1, 2⟩ :=
  deriveParameters_correct.1 2 0 1 1 (by norm_num)

/-- C8: the Lambert W wrapper `W` is the real principal branch: on the
nonnegative arguments of the physical range it satisfies
`W z * exp (W z) = z` with `W z ≥ 0`, and in particular `W 0 = 0`. -/
theorem W_principal_branch :
    W 0 = 0 ∧ ∀ z : ℝ, 0 ≤ z → (W z * Real.exp (W z) = z ∧ 0 ≤ W z) := by
  refine ⟨lambertW_zero, fun z hz => ?_⟩
  obtain ⟨h1, h2⟩ := lambertW_eq hz
  exact ⟨h1, h2⟩

theorem W_principal_branch_witness :
    W 1 * Real.exp (W 1) = 1 ∧ 0 ≤ W 1 :=
  W_principal_branch.2 1 (by norm_num)

end MichaelisMenten
